import Mathlib

/-! Verification development for the prompt-library synchronisation scripts
(`notion_export.py`, `notion_import.py`).

Python strings are modelled as `List Char` where character-level operations
matter (split / replace / regex substitution / strip / negative indexing),
and as `String` for whole record fields.  The Notion client, the filesystem
and the wall clock are modelled as explicit values passed in.  All
definitions are executable so that concrete scenarios evaluate by `decide`.
-/

namespace PromptLib

/-- Index of the leftmost occurrence of `sep` in `l` (`none` when `sep` does not
occur).  This drives the models of Python `str.split` and `str.replace`, both of
which scan left-to-right and consume non-overlapping matches. -/
def findSub (sep : List Char) : List Char → Option Nat
  | [] => if sep = [] then some 0 else none
  | x :: xs => if sep.isPrefixOf (x :: xs) then some 0 else (findSub sep xs).map (· + 1)

/-- Fuel-driven worker for `pySplit`; the fuel only serves structural recursion
and is irrelevant once it exceeds the length of the input (see `pySplitF_fuel`). -/
def pySplitF (sep : List Char) : Nat → List Char → List (List Char)
  | 0, l => [l]
  | fuel + 1, l =>
    match findSub sep l with
    | none => [l]
    | some i => l.take i :: pySplitF sep fuel (l.drop (i + sep.length))

/-- Model of Python `s.split(sep)` for a nonempty separator: the pieces between
leftmost non-overlapping occurrences of `sep`. -/
def pySplit (sep l : List Char) : List (List Char) :=
  pySplitF sep (l.length + 1) l

/-- Fuel-driven worker for `pySplitN`. -/
def pySplitNF (sep : List Char) : Nat → Nat → List Char → List (List Char)
  | 0, _, l => [l]
  | _ + 1, 0, l => [l]
  | fuel + 1, n + 1, l =>
    match findSub sep l with
    | none => [l]
    | some i => l.take i :: pySplitNF sep fuel n (l.drop (i + sep.length))

/-- Model of Python `s.split(sep, maxsplit)` for a nonempty separator. -/
def pySplitN (sep : List Char) (n : Nat) (l : List Char) : List (List Char) :=
  pySplitNF sep (l.length + 1) n l

/-- Fuel-driven worker for `replaceAll`. -/
def replaceAllF (sep rep : List Char) : Nat → List Char → List Char
  | 0, l => l
  | fuel + 1, l =>
    match findSub sep l with
    | none => l
    | some i => l.take i ++ rep ++ replaceAllF sep rep fuel (l.drop (i + sep.length))

/-- Model of Python `s.replace(sep, rep)` for a nonempty pattern: replaces every
leftmost non-overlapping occurrence. -/
def replaceAll (sep rep l : List Char) : List Char :=
  replaceAllF sep rep (l.length + 1) l

/-- The character class `[a-z0-9]` of `slugify`'s regular expression. -/
def isLowerAlnum (c : Char) : Bool :=
  ('a' ≤ c && c ≤ 'z') || ('0' ≤ c && c ≤ '9')

/-- ASCII fragment of Python `str.lower` (the only fragment that matters to
`slugify`, whose regex keeps only `[a-z0-9]` afterwards). -/
def lowerChar (c : Char) : Char :=
  if 'A' ≤ c && c ≤ 'Z' then Char.ofNat (c.toNat + 32) else c

/-- Model of `re.sub(r"[^a-z0-9]+", "-", s)`: each maximal run of characters
outside `[a-z0-9]` becomes a single `'-'`.  The flag records whether we are
inside a run whose dash has already been emitted. -/
def collapseGo : Bool → List Char → List Char
  | _, [] => []
  | false, c :: cs =>
    if isLowerAlnum c then c :: collapseGo false cs else '-' :: collapseGo true cs
  | true, c :: cs =>
    if isLowerAlnum c then c :: collapseGo false cs else collapseGo true cs

/-- Left part of Python `s.strip("-")`. -/
def lstripDash (l : List Char) : List Char := l.dropWhile (· == '-')

/-- Right part of Python `s.strip("-")`. -/
def rstripDash (l : List Char) : List Char := (l.reverse.dropWhile (· == '-')).reverse

/-- `slugify` from notion_export.py lines 51-54: lowercase, collapse non-alnum
runs to `'-'`, strip `'-'` from both ends. -/
def slugify (l : List Char) : List Char :=
  rstripDash (lstripDash (collapseGo false (l.map lowerChar)))

/-- Worker for `alnumChunks`: `cur` is the current chunk, reversed. -/
def chunksGo : List Char → List Char → List (List Char)
  | cur, [] => if cur.isEmpty then [] else [cur.reverse]
  | cur, c :: cs =>
    if isLowerAlnum c then chunksGo (c :: cur) cs
    else if cur.isEmpty then chunksGo [] cs
    else cur.reverse :: chunksGo [] cs

/-- The maximal runs of `[a-z0-9]` characters of `l`, in order. -/
def alnumChunks (l : List Char) : List (List Char) := chunksGo [] l

/-- Join chunks with a single `'-'` between consecutive chunks. -/
def joinDash : List (List Char) → List Char
  | [] => []
  | [x] => x
  | x :: xs => x ++ '-' :: joinDash xs

/-- Modelled from the spec §4.1's words: "lowercase(text) with every maximal run
of characters outside `[a-z0-9]` replaced by a single separator, then separators
trimmed from both ends" — rendered as: the maximal alphanumeric runs of the
lowercased text joined by single dashes (interior runs become separators,
boundary runs are trimmed away). -/
def spec_slugify (l : List Char) : List Char :=
  joinDash (alnumChunks (l.map lowerChar))

/-- Two adjacent characters are not both dashes (the shape invariant of
`collapseGo` output). -/
def DashSep (a b : Char) : Prop := ¬(a = '-' ∧ b = '-')

/-- `"<system>"` -/
def sysOpenBody : List Char := ['<', 's', 'y', 's', 't', 'e', 'm', '>']

/-- `"<system>\n"` -/
def sysOpenT : List Char := sysOpenBody ++ ['\n']

/-- `"</system>"` -/
def sysCloseT : List Char := ['<', '/', 's', 'y', 's', 't', 'e', 'm', '>']

/-- `"<user>"` -/
def usrOpenBody : List Char := ['<', 'u', 's', 'e', 'r', '>']

/-- `"<user>\n"` -/
def usrOpenT : List Char := usrOpenBody ++ ['\n']

/-- `"</user>"` -/
def usrCloseT : List Char := ['<', '/', 'u', 's', 'e', 'r', '>']

/-- The composite `template` string built by `extract_properties`
(notion_export.py line 82):
`<system>\n{system_prompt}\n</system>\n<user>\n{user_template}\n</user>`. -/
def composeT (s u : List Char) : List Char :=
  sysOpenT ++ s ++ '\n' :: sysCloseT ++ '\n' :: usrOpenT ++ u ++ '\n' :: usrCloseT

/-- The template decomposition inside `upsert_prompt`
(notion_import.py lines 56-62):
`system_txt = tpl.split("</system>")[0].replace("<system>\n", "")`,
`user_txt = tpl.split("</user>")[-2].split("<user>\n")[-1]`,
with any exception (the only possible one for a string input is the
`IndexError` of `[-2]` when `"</user>"` does not occur) resetting both
results to the empty string. -/
def upsert_split_template (tpl : List Char) : List Char × List Char :=
  let uparts := pySplit usrCloseT tpl
  if uparts.length < 2 then ([], [])
  else
    (replaceAll sysOpenT [] (pySplit sysCloseT tpl).headI,
     (pySplit usrOpenT (uparts.getD (uparts.length - 2) [])).getLastD [])

/-- One Notion page, abstracted to the typed property values that
`extract_properties` reads after its `get` helper: rich-text properties are
lists of `plain_text` parts, select properties are an optional name, and
missing properties are `none` / `[]`. -/
structure Page where
  id : String
  Name : List String
  SystemPrompt : List String
  UserTemplate : List String
  Kategorie : Option String
  Tags : Option (List String)
  Version : Option String
  QualitaetsDims : Option (List String)
  Lizenz : Option String
  Autor : List String

/-- `notion_rich_text_to_str` (notion_export.py lines 57-58). -/
def notion_rich_text_to_str (rich : List String) : String := String.join rich

/-- The `metadata` mapping of a Canonical Prompt Document. -/
structure PromptMetadata where
  authors : List String
  version : String
  license : String
  exported_at : String
  notion_page_id : String

/-- A Canonical Prompt Document as built by `extract_properties`. -/
structure PromptDoc where
  name : String
  description : String
  tags : List String
  template : String
  quality_dimensions : List String
  metadata : PromptMetadata

/-- `slugify` lifted to `String`. -/
def slugifyStr (s : String) : String := String.mk (slugify s.data)

/-- Python `s.split("\n", 1)[0][:100]`: the first line, truncated to 100
characters. -/
def pyFirstLine100 (s : String) : String :=
  String.mk ((s.data.takeWhile (fun c => c != '\n')).take 100)

/-- `extract_properties` (notion_export.py lines 61-91).  The wall-clock time
`datetime.utcnow().isoformat()` is passed in as `now`; the code appends `"Z"`.
Python falsiness of `""` and `[]` drives the `untitled` / description /
`Unknown` fallbacks. -/
def extract_properties (now : String) (page : Page) : PromptDoc :=
  let name := if notion_rich_text_to_str page.Name = "" then "untitled"
              else notion_rich_text_to_str page.Name
  let system_prompt := notion_rich_text_to_str page.SystemPrompt
  let user_template := notion_rich_text_to_str page.UserTemplate
  let category := page.Kategorie.getD "uncategorised"
  let version := page.Version.getD "0.1.0"
  ⟨"fit/" ++ slugifyStr category ++ "/" ++ slugifyStr name ++ "@" ++ version,
   if user_template = "" then name else pyFirstLine100 user_template,
   page.Tags.getD [],
   "<system>\n" ++ system_prompt ++ "\n</system>\n<user>\n" ++ user_template ++ "\n</user>",
   page.QualitaetsDims.getD [],
   ⟨if page.Autor = [] then ["Unknown"] else page.Autor,
    version,
    page.Lizenz.getD "internal",
    now ++ "Z",
    page.id⟩⟩

/-- `"/"` as a separator. -/
def slashT : List Char := ['/']

/-- `"@"` as a separator. -/
def atT : List Char := ['@']

/-- `".yaml"` -/
def yamlExt : List Char := ['.', 'y', 'a', 'm', 'l']

/-- The path computation of `write_yaml` (notion_export.py lines 94-100):
`_, filename_with_version = prompt["name"].split("/", 2)` then
`filename, _ = filename_with_version.split("@", 1)` then
`category = prompt["name"].split("/")[1]`, giving
`output_dir / category / f"{filename}.yaml"`.  `none` models the `ValueError`
of an unpacking whose two targets do not match the number of pieces, and the
`IndexError` of `[1]`. -/
def write_yaml_path (output_dir : List String) (name : List Char) : Option (List String) :=
  match pySplitN slashT 2 name with
  | [_, filename_with_version] =>
    match pySplitN atT 1 filename_with_version with
    | [filename, _] =>
      match (pySplit slashT name)[1]? with
      | some category => some (output_dir ++ [String.mk category, String.mk filename ++ ".yaml"])
      | none => none
    | _ => none
  | _ => none

/-- `delete_removed` (notion_export.py lines 107-115) acting on an explicit
file-set state `fs`: every `path` of `existing` not in `retained` is unlinked.
The function performs no writes, only deletions. -/
def delete_removed (existing retained : List String) (fs : List String) : List String :=
  match existing with
  | [] => fs
  | p :: rest => delete_removed rest retained (if p ∈ retained then fs else fs.erase p)

/-- Whether a path is matched by the `rglob("*.yaml")` enumeration of
notion_export.py line 166: its name ends in `".yaml"`. -/
def isYamlPath (p : String) : Bool := yamlExt.isSuffixOf p.data

/-- Outcome of the Notion query inside `find_page_by_title`: a result list, or
an `APIResponseError`. -/
inductive QueryOutcome where
  | ok (results : List String)
  | err

/-- `find_page_by_title` (notion_import.py lines 32-47): first result's id on
success; `None` on an empty result list; the `except APIResponseError` branch
logs and returns `None`. -/
def find_page_by_title : QueryOutcome → Option String
  | .ok results => results.head?
  | .err => none

/-- Python `a or b` on an optional string, where both `None` and `""` are
falsy. -/
def pyOrOpt (a b : Option String) : Option String :=
  match a with
  | some s => if s = "" then b else some s
  | none => b

/-- `page_id = slug_to_id.get(name) or find_page_by_title(name)`
(notion_import.py line 74), with the query's outcome passed in explicitly. -/
def resolve_page_id (m : List (String × String)) (name : String) (q : QueryOutcome) :
    Option String :=
  pyOrOpt (m.lookup name) (find_page_by_title q)

/-- What `upsert_prompt` does with the resolved id (notion_import.py lines
75-89): update when an id was found, create otherwise. -/
inductive UpsertAction where
  | update (id : String)
  | create
deriving DecidableEq

/-- The create-vs-update decision of `upsert_prompt`. -/
def upsert_action (m : List (String × String)) (name : String) (q : QueryOutcome) :
    UpsertAction :=
  match resolve_page_id m name q with
  | some pid => .update pid
  | none => .create

/-- The Notion properties payload built by `upsert_prompt`
(notion_import.py lines 64-71), abstracted to the contained strings. -/
structure NotionProps where
  name : String
  system_prompt : String
  user_template : String
  kategorie : String
  tags : List String
  version : String

/-- Building the props payload of `upsert_prompt`: the template is decomposed
by `upsert_split_template`, the category is `data["name"].split("/")[1]`
(where `none` models that `IndexError`). -/
def upsert_props (docName tpl : String) (tags : List String) (version : String) :
    Option NotionProps :=
  let st := upsert_split_template tpl.data
  match (pySplit slashT docName.data)[1]? with
  | some cat => some ⟨docName, String.mk st.1, String.mk st.2, String.mk cat, tags, version⟩
  | none => none

/-- Log line of one processed record during an import run. -/
inductive ImportEvent where
  | created (name id : String)
  | updated (name id : String)

/-- One record of an import run: its canonical name, the outcome the title
query would have for it, and the id Notion would assign on a create. -/
structure ImportRec where
  name : String
  q : QueryOutcome
  newId : String

/-- Python `d[k] = v` on a dict modelled as an ordered association list:
overwrite in place when the key exists, append otherwise. -/
def dinsert (m : List (String × String)) (k v : String) : List (String × String) :=
  if (m.lookup k).isSome then m.map (fun p => if p.1 = k then (k, v) else p)
  else m ++ [(k, v)]

/-- The import run of `main` (notion_import.py lines 91-96): fold
`upsert_prompt` over the records, threading `slug_to_id`, which is extended
(line 85) only in the create branch. -/
def run_import : List (String × String) → List ImportRec → List (String × String) × List ImportEvent
  | m, [] => (m, [])
  | m, r :: rs =>
    match resolve_page_id m r.name r.q with
    | some pid =>
      let rest := run_import m rs
      (rest.1, .updated r.name pid :: rest.2)
    | none =>
      let rest := run_import (dinsert m r.name r.newId) rs
      (rest.1, .created r.name r.newId :: rest.2)

/-- The name→id entries contributed by the create events of a run. -/
def createdEntries (evs : List ImportEvent) : List (String × String) :=
  evs.filterMap fun e =>
    match e with
    | .created n i => some (n, i)
    | .updated _ _ => none

/-- The record of the spec's §8 scenario: Name "Support Bot", Kategorie
"Customer", Version "1.2.0", System Prompt "Be kind.", User Template
"Hello\nWorld". -/
def supportBotPage : Page :=
  ⟨"page-1", ["Support Bot"], ["Be kind."], ["Hello\nWorld"], some "Customer",
   none, some "1.2.0", none, none, []⟩

/-- Membership in the file set left by `delete_removed`: starting from a
duplicate-free file set, a path survives iff it was present and is not a
deleted one (listed in `existing` but not retained). -/
theorem mem_delete_removed (existing retained fs : List String) (hnd : fs.Nodup) (q : String) :
    q ∈ delete_removed existing retained fs ↔ q ∈ fs ∧ (q ∈ existing → q ∈ retained) := by
  induction existing generalizing fs with
  | nil => simp [delete_removed]
  | cons p rest ih =>
    rw [delete_removed]
    by_cases hp : p ∈ retained
    · rw [if_pos hp, ih fs hnd]
      have hqp : q = p → q ∈ retained := fun h => h ▸ hp
      simp only [List.mem_cons]
      tauto
    · rw [if_neg hp, ih (fs.erase p) (hnd.erase p), hnd.mem_erase_iff]
      simp only [List.mem_cons]
      constructor
      · rintro ⟨⟨hqp, hfs⟩, himp⟩
        exact ⟨hfs, fun hc => hc.elim (fun h => absurd h hqp) himp⟩
      · rintro ⟨hfs, himp⟩
        have hqp : q ≠ p := fun h => hp (h ▸ himp (Or.inl h))
        exact ⟨⟨hqp, hfs⟩, fun h => himp (Or.inr h)⟩

/-- A path that is not enumerated in `existing` is never touched by
`delete_removed`. -/
theorem delete_removed_not_mem (existing retained fs : List String) (q : String)
    (hq : q ∉ existing) : q ∈ delete_removed existing retained fs ↔ q ∈ fs := by
  induction existing generalizing fs with
  | nil => simp [delete_removed]
  | cons p rest ih =>
    have hqp : q ≠ p := fun h => hq (h ▸ List.mem_cons_self p rest)
    have hq' : q ∉ rest := fun h => hq (List.mem_cons_of_mem _ h)
    rw [delete_removed]
    by_cases hp : p ∈ retained
    · rw [if_pos hp, ih fs hq']
    · rw [if_neg hp, ih (fs.erase p) hq', List.mem_erase_of_ne hqp]

/-- C1 (code bug): on the Support Bot record, `extract_properties` does produce
name `fit/customer/support-bot@1.2.0` and description `"Hello"` as claimed, but
`write_yaml` then crashes instead of writing
`<output_dir>/customer/support-bot.yaml`: line 95 unpacks
`prompt["name"].split("/", 2)` — three pieces for every canonical name — into
two targets, raising `ValueError`, modelled here by `write_yaml_path` returning
`none`. -/
theorem write_yaml_crashes_on_support_bot :
    (extract_properties "2026-10-12T00:00:00" supportBotPage).name =
      "fit/customer/support-bot@1.2.0" ∧
    (extract_properties "2026-10-12T00:00:00" supportBotPage).description = "Hello" ∧
    write_yaml_path ["prompts"]
      (extract_properties "2026-10-12T00:00:00" supportBotPage).name.data = none := by
  decide

/-- C3: for duplicate-free path sets, after `delete_removed existing retained`
runs without error on the file set `existing`: a path of `existing` is gone iff
it was not retained; every retained path that existed still exists (and the
function performs no writes, so "untouched" is deletion-only); and when
`retained ⊆ existing` the surviving file set is exactly `retained`. -/
theorem delete_removed_reconciles (existing retained : List String)
    (hnd : existing.Nodup) (q : String) :
    ((q ∈ existing ∧ q ∉ delete_removed existing retained existing) ↔
      (q ∈ existing ∧ q ∉ retained)) ∧
    (q ∈ retained → (q ∈ delete_removed existing retained existing ↔ q ∈ existing)) ∧
    (retained ⊆ existing →
      (q ∈ delete_removed existing retained existing ↔ q ∈ retained)) := by
  have key := mem_delete_removed existing retained existing hnd q
  refine ⟨?_, ?_, ?_⟩
  · rw [key]; tauto
  · intro hq; rw [key]; tauto
  · intro hsub
    have h3 : q ∈ retained → q ∈ existing := fun h => hsub h
    rw [key]; tauto

/-- Witness for `delete_removed_reconciles` at a concrete scenario (one stale
file `old`, retained `a` and `b`). -/
theorem delete_removed_reconciles_witness :
    (["a", "b", "old"] : List String).Nodup ∧
    (("old" ∈ ["a", "b", "old"] ∧
        "old" ∉ delete_removed ["a", "b", "old"] ["a", "b"] ["a", "b", "old"]) ↔
      ("old" ∈ ["a", "b", "old"] ∧ "old" ∉ (["a", "b"] : List String))) ∧
    ("old" ∈ (["a", "b"] : List String) →
      ("old" ∈ delete_removed ["a", "b", "old"] ["a", "b"] ["a", "b", "old"] ↔
        "old" ∈ (["a", "b", "old"] : List String))) ∧
    ((["a", "b"] : List String) ⊆ ["a", "b", "old"] →
      ("old" ∈ delete_removed ["a", "b", "old"] ["a", "b"] ["a", "b", "old"] ↔
        "old" ∈ (["a", "b"] : List String))) :=
  ⟨by decide, delete_removed_reconciles ["a", "b", "old"] ["a", "b"] (by decide) "old"⟩

/-- C10: the reconciliation step of the export `main` can only ever delete
paths produced by the `rglob("*.yaml")` enumeration: any path under the output
root whose name does not end in `.yaml` is left in the file set untouched,
whatever `retained` is. -/
theorem cleanup_only_deletes_yaml (files retained : List String) (q : String)
    (hy : isYamlPath q = false) :
    q ∈ delete_removed (files.filter isYamlPath) retained files ↔ q ∈ files := by
  have hq : q ∉ files.filter isYamlPath := by
    intro h
    rw [List.mem_filter] at h
    rw [hy] at h
    exact absurd h.2 (by decide)
  exact delete_removed_not_mem (files.filter isYamlPath) retained files q hq

/-- Witness for `cleanup_only_deletes_yaml`: a `README.md` under the output
root survives a cleanup that deletes every yaml file. -/
theorem cleanup_only_deletes_yaml_witness :
    isYamlPath "README.md" = false ∧
    ("README.md" ∈
        delete_removed (List.filter isYamlPath ["a.yaml", "README.md"]) []
          ["a.yaml", "README.md"] ↔
      "README.md" ∈ (["a.yaml", "README.md"] : List String)) :=
  ⟨by decide, cleanup_only_deletes_yaml ["a.yaml", "README.md"] [] "README.md" (by decide)⟩

/-- C4: `upsert_prompt` resolves the page id by consulting the persisted
mapping first — on a hit (a non-empty stored id) the outcome is `update` with
that id for every possible query outcome, so the remote query is not needed —
and only on a miss does the title query decide; when the mapping misses and the
query returns no match, or fails with `APIResponseError` (treated as "not
found" by `find_page_by_title`), the action is `create`, not an abort. -/
theorem upsert_resolution_order (m : List (String × String)) (name pid : String)
    (q : QueryOutcome) (hpid : pid ≠ "") :
    (m.lookup name = some pid → upsert_action m name q = .update pid) ∧
    (m.lookup name = none →
      upsert_action m name q =
        (match find_page_by_title q with
         | some i => UpsertAction.update i
         | none => UpsertAction.create)) ∧
    (m.lookup name = none → find_page_by_title .err = none ∧
      upsert_action m name .err = .create) ∧
    (m.lookup name = none → upsert_action m name (.ok []) = .create) := by
  refine ⟨?_, ?_, ?_, ?_⟩
  · intro h
    simp [upsert_action, resolve_page_id, pyOrOpt, h, hpid]
  · intro h
    cases hf : find_page_by_title q <;>
      simp [upsert_action, resolve_page_id, pyOrOpt, h, hf]
  · intro h
    simp [upsert_action, resolve_page_id, pyOrOpt, h, find_page_by_title]
  · intro h
    simp [upsert_action, resolve_page_id, pyOrOpt, h, find_page_by_title]

/-- Witness for `upsert_resolution_order` at a one-entry mapping. -/
theorem upsert_resolution_order_witness :
    ("id-1" : String) ≠ "" ∧
    (([("other", "id-1")] : List (String × String)).lookup "fit/x/y@1" = none →
      upsert_action [("other", "id-1")] "fit/x/y@1" .err = .create) :=
  ⟨by decide,
   fun h =>
     ((upsert_resolution_order [("other", "id-1")] "fit/x/y@1" "id-1" .err
        (by decide)).2.2.1 h).2⟩

/-- C8: two export runs over the same remote record at different times agree on
every field of the produced document except `metadata.exported_at`, which is
the run's own timestamp (suffixed with `"Z"`) and therefore differs. -/
theorem export_runs_differ_only_in_exported_at (t1 t2 : String) (page : Page)
    (h : t1 ≠ t2) :
    (extract_properties t1 page).name = (extract_properties t2 page).name ∧
    (extract_properties t1 page).description = (extract_properties t2 page).description ∧
    (extract_properties t1 page).tags = (extract_properties t2 page).tags ∧
    (extract_properties t1 page).template = (extract_properties t2 page).template ∧
    (extract_properties t1 page).quality_dimensions =
      (extract_properties t2 page).quality_dimensions ∧
    (extract_properties t1 page).metadata.authors =
      (extract_properties t2 page).metadata.authors ∧
    (extract_properties t1 page).metadata.version =
      (extract_properties t2 page).metadata.version ∧
    (extract_properties t1 page).metadata.license =
      (extract_properties t2 page).metadata.license ∧
    (extract_properties t1 page).metadata.notion_page_id =
      (extract_properties t2 page).metadata.notion_page_id ∧
    (extract_properties t1 page).metadata.exported_at ≠
      (extract_properties t2 page).metadata.exported_at := by
  refine ⟨rfl, rfl, rfl, rfl, rfl, rfl, rfl, rfl, rfl, ?_⟩
  intro hz
  apply h
  have hz' : t1 ++ "Z" = t2 ++ "Z" := hz
  have hd := congrArg String.data hz'
  rw [String.data_append, String.data_append] at hd
  exact String.ext (List.append_cancel_right hd)

/-- Witness for `export_runs_differ_only_in_exported_at` at two concrete
timestamps. -/
theorem export_runs_differ_only_in_exported_at_witness :
    ("2024-01-01T00:00:00" : String) ≠ "2024-01-02T00:00:00" ∧
    (extract_properties "2024-01-01T00:00:00" supportBotPage).metadata.exported_at ≠
      (extract_properties "2024-01-02T00:00:00" supportBotPage).metadata.exported_at :=
  ⟨by decide,
   (export_runs_differ_only_in_exported_at "2024-01-01T00:00:00" "2024-01-02T00:00:00"
      supportBotPage (by decide)).2.2.2.2.2.2.2.2.2⟩

/-- A successful lookup hits an entry of the association list. -/
theorem mem_of_lookup_eq_some {m : List (String × String)} {k v : String}
    (h : m.lookup k = some v) : (k, v) ∈ m := by
  rcases List.lookup_eq_some_iff.mp h with ⟨l₁, l₂, hm, _⟩
  rw [hm]
  exact List.mem_append.mpr (Or.inr (List.mem_cons_self _ _))

/-- C9: ids obtained through the title-lookup fallback are never persisted —
`slug_to_id` is extended only in the create branch — so the mapping at the end
of a run is exactly the mapping loaded at start followed by one entry per page
created in that run, in order.  Stored and created ids are assumed non-empty
(Notion ids are UUIDs; Python truthiness of `""` would otherwise re-trigger
the fallback). -/
theorem page_map_extended_only_by_creates (m : List (String × String))
    (recs : List ImportRec) (hm : ∀ p ∈ m, p.2 ≠ "")
    (hr : ∀ r ∈ recs, r.newId ≠ "") :
    (run_import m recs).1 = m ++ createdEntries (run_import m recs).2 := by
  induction recs generalizing m with
  | nil => simp [run_import, createdEntries]
  | cons r rs ih =>
    cases hres : resolve_page_id m r.name r.q with
    | some pid =>
      have hrs := ih m hm (fun x hx => hr x (List.mem_cons_of_mem _ hx))
      simp only [run_import, hres]
      simpa [createdEntries] using hrs
    | none =>
      have hlk : m.lookup r.name = none := by
        cases hl : m.lookup r.name with
        | none => rfl
        | some v =>
          have hv : v ≠ "" := hm (r.name, v) (mem_of_lookup_eq_some hl)
          rw [resolve_page_id, hl, pyOrOpt, if_neg hv] at hres
          exact absurd hres (by simp)
      have hins : dinsert m r.name r.newId = m ++ [(r.name, r.newId)] := by
        simp [dinsert, hlk]
      have hm' : ∀ p ∈ m ++ [(r.name, r.newId)], p.2 ≠ "" := by
        intro p hp
        rcases List.mem_append.mp hp with hp | hp
        · exact hm p hp
        · rcases List.mem_singleton.mp hp with rfl
          exact hr r (List.mem_cons_self _ _)
      have hrs := ih (m ++ [(r.name, r.newId)]) hm'
        (fun x hx => hr x (List.mem_cons_of_mem _ hx))
      simp only [run_import, hres]
      rw [hins]
      simp only [createdEntries, List.filterMap_cons] at hrs ⊢
      rw [hrs]
      simp [List.append_assoc, createdEntries]

/-- Witness for `page_map_extended_only_by_creates`: one update hit via the
mapping, one fresh create. -/
theorem page_map_extended_only_by_creates_witness :
    (∀ p ∈ ([("a", "id-a")] : List (String × String)), p.2 ≠ "") ∧
    (∀ r ∈ ([⟨"a", .ok [], "new-1"⟩, ⟨"b", .ok [], "new-2"⟩] : List ImportRec),
      r.newId ≠ "") ∧
    (run_import [("a", "id-a")] [⟨"a", .ok [], "new-1"⟩, ⟨"b", .ok [], "new-2"⟩]).1 =
      [("a", "id-a")] ++
        createdEntries
          (run_import [("a", "id-a")]
            [⟨"a", .ok [], "new-1"⟩, ⟨"b", .ok [], "new-2"⟩]).2 :=
  ⟨by decide, by decide,
   page_map_extended_only_by_creates [("a", "id-a")]
     [⟨"a", .ok [], "new-1"⟩, ⟨"b", .ok [], "new-2"⟩] (by decide) (by decide)⟩

/-- A pattern avoiding the character `c` that starts before an explicit
`c`-junction must end before it. -/
theorem prefix_drop_char {w x y : List Char} {c : Char} (hc : c ∉ w)
    (h : w <+: x ++ c :: y) : w <+: x := by
  induction w generalizing x with
  | nil => exact List.nil_prefix
  | cons b w' ihw =>
    have hbc : b ≠ c := fun h' => hc (h' ▸ List.mem_cons_self b w')
    have hc' : c ∉ w' := fun h' => hc (List.mem_cons_of_mem _ h')
    cases x with
    | nil =>
      rw [List.nil_append] at h
      rcases List.cons_prefix_cons.mp h with ⟨hb, _⟩
      exact absurd hb hbc
    | cons a x' =>
      rw [List.cons_append] at h
      rcases List.cons_prefix_cons.mp h with ⟨hb, hw⟩
      exact List.cons_prefix_cons.mpr ⟨hb, ihw hc' hw⟩

/-- An occurrence of a pattern avoiding `c` lies on one side of an explicit
`c`. -/
theorem infix_split_char {w x y : List Char} {c : Char} (hc : c ∉ w)
    (h : w <:+: x ++ c :: y) : w <:+: x ∨ w <:+: y := by
  induction x with
  | nil =>
    rw [List.nil_append] at h
    rcases List.infix_cons_iff.mp h with h | h
    · cases w with
      | nil => exact Or.inl List.nil_infix
      | cons b w' =>
        rcases List.cons_prefix_cons.mp h with ⟨hb, _⟩
        exact absurd hb (fun h' => hc (h' ▸ List.mem_cons_self b w'))
    · exact Or.inr h
  | cons a x' ihx =>
    rw [List.cons_append] at h
    rcases List.infix_cons_iff.mp h with h | h
    · rw [← List.cons_append] at h
      exact Or.inl (prefix_drop_char hc h).isInfix
    · rcases ihx h with h | h
      · exact Or.inl (List.infix_cons h)
      · exact Or.inr h

/-- Contrapositive packaging of `infix_split_char`. -/
theorem not_infix_append_char {w x y : List Char} {c : Char} (hc : c ∉ w)
    (hx : ¬ w <:+: x) (hy : ¬ w <:+: y) : ¬ w <:+: x ++ c :: y :=
  fun h => (infix_split_char hc h).elim hx hy

/-- A suffix avoiding `c` of a list with an explicit `c` is a suffix of the
part after it. -/
theorem suffix_drop_char {w x y : List Char} {c : Char} (hc : c ∉ w)
    (h : w <:+ x ++ c :: y) : w <:+ y := by
  have h1 : w.reverse <+: y.reverse ++ c :: x.reverse := by
    have h2 := List.reverse_prefix.mpr h
    rw [List.reverse_append] at h2
    simpa [List.reverse_cons, List.append_assoc] using h2
  have h3 := prefix_drop_char (fun hcm => hc (List.mem_reverse.mp hcm)) h1
  exact List.reverse_prefix.mp h3

/-- When a pattern `w' ++ [c]` with `c ∉ w'` occurs as a prefix of
`x ++ c :: y`, it either fits inside `x` or ends exactly at the explicit `c`. -/
theorem prefix_end_char {w' x y : List Char} {c : Char} (hc : c ∉ w')
    (h : (w' ++ [c]) <+: x ++ c :: y) : (w' ++ [c]) <+: x ∨ w' = x := by
  rcases Nat.lt_or_ge x.length (w'.length + 1) with hlt | hle
  · right
    have hw : w' <+: x ++ c :: y := (List.prefix_append w' [c]).trans h
    have hxw : x <+: w' :=
      List.prefix_of_prefix_length_le ⟨c :: y, rfl⟩ hw (by omega)
    obtain ⟨w₂, rfl⟩ := hxw
    obtain ⟨t, ht⟩ := h
    have ht2 : x ++ (w₂ ++ c :: t) = x ++ c :: y := by
      simpa [List.append_assoc] using ht
    have ht3 := List.append_cancel_left ht2
    cases w₂ with
    | nil => simp
    | cons e w₂' =>
      have he : e = c := (List.cons.injEq _ _ _ _).mp ht3 |>.1
      exact absurd (he ▸ List.mem_append.mpr
        (Or.inr (List.mem_cons_self e w₂'))) hc
  · left
    exact List.prefix_of_prefix_length_le h ⟨c :: y, rfl⟩ (by simp; omega)

/-- When a pattern `w' ++ [c]` with `c ∉ w'` occurs anywhere in `x ++ c :: y`,
it is inside `x`, inside `y`, or ends exactly at the explicit `c` (so `w'` is
a suffix of `x`). -/
theorem infix_end_char {w' x y : List Char} {c : Char} (hc : c ∉ w')
    (h : (w' ++ [c]) <:+: x ++ c :: y) :
    (w' ++ [c]) <:+: x ∨ (w' ++ [c]) <:+: y ∨ w' <:+ x := by
  induction x with
  | nil =>
    rw [List.nil_append] at h
    rcases List.infix_cons_iff.mp h with h | h
    · cases w' with
      | nil => exact Or.inr (Or.inr List.nil_suffix)
      | cons b w'' =>
        rw [List.cons_append] at h
        rcases List.cons_prefix_cons.mp h with ⟨hb, _⟩
        exact absurd hb (fun h' => hc (h' ▸ List.mem_cons_self b w''))
    · exact Or.inr (Or.inl h)
  | cons a x' ihx =>
    rw [List.cons_append] at h
    rcases List.infix_cons_iff.mp h with h | h
    · rw [← List.cons_append] at h
      rcases prefix_end_char hc h with h | h
      · exact Or.inl h.isInfix
      · exact Or.inr (Or.inr (h ▸ List.suffix_refl _))
    · rcases ihx h with h | h | h
      · exact Or.inl (List.infix_cons h)
      · exact Or.inr (Or.inl h)
      · exact Or.inr (Or.inr (h.trans (List.suffix_cons a x')))

/-- An occurrence in `X ++ [c]` is an occurrence in `X` or a suffix ending at
`c`. -/
theorem infix_snoc_cases {w X : List Char} {c : Char} (h : w <:+: X ++ [c]) :
    w <:+: X ∨ w <:+ X ++ [c] := by
  have h1 : w.reverse <:+: c :: X.reverse := by
    have h2 := List.reverse_infix.mpr h
    rw [List.reverse_append] at h2
    simpa using h2
  rcases List.infix_cons_iff.mp h1 with h1 | h1
  · right
    have h2 : w.reverse <+: (X ++ [c]).reverse := by
      rw [List.reverse_append]
      simpa using h1
    exact List.reverse_prefix.mp h2
  · exact Or.inl (List.reverse_infix.mp h1)

/-- Cancelling a common last character of a suffix relation. -/
theorem suffix_snoc_cancel {w X : List Char} {c : Char}
    (h : w ++ [c] <:+ X ++ [c]) : w <:+ X := by
  have h1 := List.reverse_prefix.mpr h
  rw [List.reverse_append, List.reverse_append] at h1
  simp only [List.reverse_cons, List.reverse_nil, List.nil_append,
    List.singleton_append] at h1
  rcases List.cons_prefix_cons.mp h1 with ⟨_, h2⟩
  exact List.reverse_prefix.mp h2

/-- `findSub` misses exactly when the pattern does not occur. -/
theorem findSub_eq_none {sep l : List Char} (hsep : sep ≠ []) :
    findSub sep l = none ↔ ¬ sep <:+: l := by
  induction l with
  | nil => simp [findSub, hsep, List.infix_nil]
  | cons x xs ih =>
    rw [findSub]
    by_cases hp : sep.isPrefixOf (x :: xs)
    · have h1 : sep <:+: x :: xs := (List.isPrefixOf_iff_prefix.mp hp).isInfix
      simp [hp, h1]
    · have hp' : ¬ sep <+: x :: xs := fun h => hp (List.isPrefixOf_iff_prefix.mpr h)
      simp only [if_neg hp, Option.map_eq_none', List.infix_cons_iff]
      rw [ih]
      tauto

/-- When no occurrence starts strictly before the marker occurrence of `sep`
(no occurrence fits in `A ++ sep.dropLast`), `findSub` finds exactly the
marker. -/
theorem findSub_at_marker {sep A B : List Char} (hsep : sep ≠ [])
    (hA : ¬ sep <:+: A ++ sep.dropLast) :
    findSub sep (A ++ (sep ++ B)) = some A.length := by
  induction A with
  | nil =>
    cases sep with
    | nil => exact absurd rfl hsep
    | cons s0 sep' =>
      have hpre : (s0 :: sep').isPrefixOf (s0 :: (sep' ++ B)) :=
        List.isPrefixOf_iff_prefix.mpr ⟨B, by simp⟩
      rw [List.nil_append, List.cons_append, findSub, if_pos hpre]
      rfl
  | cons a A' ihA =>
    have hA' : ¬ sep <:+: A' ++ sep.dropLast := by
      intro h
      exact hA (by rw [List.cons_append]; exact List.infix_cons h)
    have hnp : ¬ sep.isPrefixOf (a :: (A' ++ (sep ++ B))) := by
      intro hp
      apply hA
      have hpre : sep <+: (a :: A') ++ (sep ++ B) := by
        rw [List.cons_append]
        exact List.isPrefixOf_iff_prefix.mp hp
      have hgl := List.dropLast_append_getLast hsep
      have hd : (a :: A') ++ sep.dropLast <+: (a :: A') ++ (sep ++ B) := by
        refine ⟨[sep.getLast hsep] ++ B, ?_⟩
        rw [List.append_assoc, ← List.append_assoc sep.dropLast, hgl]
      have hsl : 1 ≤ sep.length := List.length_pos.mpr hsep
      have hlen : sep.length ≤ ((a :: A') ++ sep.dropLast).length := by
        rw [List.length_append, List.length_dropLast, List.length_cons]
        omega
      exact (List.prefix_of_prefix_length_le hpre hd hlen).isInfix
    rw [List.cons_append, findSub, if_neg hnp, ihA hA']
    rfl

/-- The fuel of `pySplitF` is irrelevant once it exceeds the input length. -/
theorem pySplitF_ext {sep : List Char} (hsep : sep ≠ []) :
    ∀ (n : Nat) (l : List Char) (f g : Nat), l.length ≤ n → l.length < f →
      l.length < g → pySplitF sep f l = pySplitF sep g l := by
  intro n
  induction n with
  | zero =>
    intro l f g h1 hf hg
    obtain rfl : l = [] := List.length_eq_zero.mp (Nat.le_zero.mp h1)
    obtain ⟨f', rfl⟩ : ∃ f', f = f' + 1 := ⟨f - 1, by omega⟩
    obtain ⟨g', rfl⟩ : ∃ g', g = g' + 1 := ⟨g - 1, by omega⟩
    simp [pySplitF, findSub, hsep]
  | succ n ihn =>
    intro l f g h1 hf hg
    obtain ⟨f', rfl⟩ : ∃ f', f = f' + 1 := ⟨f - 1, by omega⟩
    obtain ⟨g', rfl⟩ : ∃ g', g = g' + 1 := ⟨g - 1, by omega⟩
    cases hfs : findSub sep l with
    | none => simp only [pySplitF, hfs]
    | some i =>
      simp only [pySplitF, hfs]
      have hl0 : l ≠ [] := by
        intro h
        rw [h] at hfs
        simp [findSub, hsep] at hfs
      have hl1 : 1 ≤ l.length := List.length_pos.mpr hl0
      have hsl : 1 ≤ sep.length := List.length_pos.mpr hsep
      have hdl : (l.drop (i + sep.length)).length ≤ l.length - 1 := by
        rw [List.length_drop]
        omega
      rw [ihn (l.drop (i + sep.length)) f' g' (by omega) (by omega) (by omega)]

/-- `pySplit` on a string without the separator is the singleton piece. -/
theorem pySplit_no_marker {sep l : List Char} (h : ¬ sep <:+: l) :
    pySplit sep l = [l] := by
  have hsep : sep ≠ [] := fun hs => h (hs ▸ List.nil_infix)
  rw [pySplit, pySplitF, (findSub_eq_none hsep).mpr h]

/-- Splitting at an isolated leading marker: when no occurrence of `sep` starts
before the explicit one, the first piece is `A` and splitting proceeds on `B`
alone. -/
theorem pySplit_marker {sep A B : List Char} (hsep : sep ≠ [])
    (hA : ¬ sep <:+: A ++ sep.dropLast) :
    pySplit sep (A ++ (sep ++ B)) = A :: pySplit sep B := by
  rw [pySplit]
  simp only [pySplitF, findSub_at_marker hsep hA]
  have ht : (A ++ (sep ++ B)).take A.length = A := List.take_left A (sep ++ B)
  have hd : (A ++ (sep ++ B)).drop (A.length + sep.length) = B := by
    rw [← List.append_assoc, ← List.length_append]
    exact List.drop_left (A ++ sep) B
  rw [ht, hd]
  have hsl : 1 ≤ sep.length := List.length_pos.mpr hsep
  have hlen : B.length < (A ++ (sep ++ B)).length := by
    simp only [List.length_append]
    omega
  rw [pySplit]
  rw [pySplitF_ext hsep (A ++ (sep ++ B)).length B (A ++ (sep ++ B)).length
    (B.length + 1) (by omega) hlen (by omega)]

/-- The fuel of `replaceAllF` is irrelevant once it exceeds the input length. -/
theorem replaceAllF_ext {sep rep : List Char} (hsep : sep ≠ []) :
    ∀ (n : Nat) (l : List Char) (f g : Nat), l.length ≤ n → l.length < f →
      l.length < g → replaceAllF sep rep f l = replaceAllF sep rep g l := by
  intro n
  induction n with
  | zero =>
    intro l f g h1 hf hg
    obtain rfl : l = [] := List.length_eq_zero.mp (Nat.le_zero.mp h1)
    obtain ⟨f', rfl⟩ : ∃ f', f = f' + 1 := ⟨f - 1, by omega⟩
    obtain ⟨g', rfl⟩ : ∃ g', g = g' + 1 := ⟨g - 1, by omega⟩
    simp [replaceAllF, findSub, hsep]
  | succ n ihn =>
    intro l f g h1 hf hg
    obtain ⟨f', rfl⟩ : ∃ f', f = f' + 1 := ⟨f - 1, by omega⟩
    obtain ⟨g', rfl⟩ : ∃ g', g = g' + 1 := ⟨g - 1, by omega⟩
    cases hfs : findSub sep l with
    | none => simp only [replaceAllF, hfs]
    | some i =>
      simp only [replaceAllF, hfs]
      have hl0 : l ≠ [] := by
        intro h
        rw [h] at hfs
        simp [findSub, hsep] at hfs
      have hl1 : 1 ≤ l.length := List.length_pos.mpr hl0
      have hsl : 1 ≤ sep.length := List.length_pos.mpr hsep
      have hdl : (l.drop (i + sep.length)).length ≤ l.length - 1 := by
        rw [List.length_drop]
        omega
      rw [ihn (l.drop (i + sep.length)) f' g' (by omega) (by omega) (by omega)]

/-- `replaceAll` on a string without the pattern is the identity. -/
theorem replaceAll_no_marker {sep rep l : List Char} (hsep : sep ≠ [])
    (h : ¬ sep <:+: l) : replaceAll sep rep l = l := by
  rw [replaceAll, replaceAllF, (findSub_eq_none hsep).mpr h]

/-- `replaceAll` at a leading occurrence of the pattern. -/
theorem replaceAll_marker_head {sep rep R : List Char} (hsep : sep ≠ []) :
    replaceAll sep rep (sep ++ R) = rep ++ replaceAll sep rep R := by
  have hfs : findSub sep (sep ++ R) = some 0 := by
    cases sep with
    | nil => exact absurd rfl hsep
    | cons s0 sep' =>
      have hpre2 : (s0 :: sep').isPrefixOf (s0 :: (sep' ++ R)) :=
        List.isPrefixOf_iff_prefix.mpr ⟨R, by simp⟩
      rw [List.cons_append, findSub, if_pos hpre2]
  rw [replaceAll]
  simp only [replaceAllF, hfs]
  rw [List.take_zero, List.nil_append, Nat.zero_add]
  have hd : (sep ++ R).drop sep.length = R := List.drop_left sep R
  rw [hd]
  congr 1
  have hsl : 1 ≤ sep.length := List.length_pos.mpr hsep
  have hlen : R.length < (sep ++ R).length := by
    simp only [List.length_append]
    omega
  rw [replaceAll]
  rw [replaceAllF_ext hsep (sep ++ R).length R (sep ++ R).length (R.length + 1)
    (by omega) hlen (by omega)]

/-- C5 counterexample: the template `"hello</user>"` does not conform to the
composite delimiter format (it is not `composeT s u` for any pair), yet the
mapper of the import direction recovers `("hello</user>", "hello")`, not empty
strings. -/
theorem malformed_template_nonempty_recovery :
    (∀ s u : List Char, "hello</user>".data ≠ composeT s u) ∧
    upsert_split_template "hello</user>".data ≠ ([], []) := by
  constructor
  · intro s u h
    have h3 := congrArg List.headI h
    have h4 : ('h' : Char) = '<' := h3
    exact absurd h4 (by decide)
  · decide

/-- C5 (amended): the recovered pair degrades to two empty strings exactly in
the one situation where the decomposition raises (and `upsert_prompt` catches):
when the template contains no occurrence of `"</user>"` at all.  The record is
still sent: the props payload is built with the two empty strings, and the
upsert decision is always an update or a create, never an abort. -/
theorem missing_user_close_degrades_empty (tpl : List Char)
    (h : ¬ usrCloseT <:+: tpl) :
    upsert_split_template tpl = ([], []) ∧
    (∀ (docName : String) (tags : List String) (version : String)
        (cat : List Char), (pySplit slashT docName.data)[1]? = some cat →
      upsert_props docName (String.mk tpl) tags version =
        some ⟨docName, "", "", String.mk cat, tags, version⟩) ∧
    (∀ (m : List (String × String)) (name : String) (q : QueryOutcome),
      upsert_action m name q = .create ∨
        ∃ pid, upsert_action m name q = .update pid) := by
  have h1 : upsert_split_template tpl = ([], []) := by
    rw [upsert_split_template]
    rw [pySplit_no_marker h]
    rfl
  refine ⟨h1, ?_, ?_⟩
  · intro docName tags version cat hcat
    rw [upsert_props]
    have hdata : (String.mk tpl).data = tpl := rfl
    rw [hdata, h1, hcat]
  · intro m name q
    rw [upsert_action]
    cases resolve_page_id m name q with
    | some pid => exact Or.inr ⟨pid, rfl⟩
    | none => exact Or.inl rfl

/-- Witness for `missing_user_close_degrades_empty` at a template with no
delimiters at all. -/
theorem missing_user_close_degrades_empty_witness :
    (¬ usrCloseT <:+: "plain text, no markup".data) ∧
    upsert_split_template "plain text, no markup".data = ([], []) :=
  ⟨by decide,
   (missing_user_close_degrades_empty "plain text, no markup".data (by decide)).1⟩

/-- C2 counterexample: for system_text `"a"` and user_text `"b"` — neither of
which contains `"</system>"` or `"</user>"` — composing with the export format
and decomposing with the import rule yields `("a\n", "b\n")`, not `("a", "b")`:
the split keeps the `"\n"` that the composition inserted before each closing
delimiter. -/
theorem roundtrip_exact_fails :
    (¬ sysCloseT <:+: ['a']) ∧ (¬ usrCloseT <:+: ['a']) ∧
    (¬ sysCloseT <:+: ['b']) ∧ (¬ usrCloseT <:+: ['b']) ∧
    upsert_split_template (composeT ['a'] ['b']) ≠ (['a'], ['b']) ∧
    upsert_split_template (composeT ['a'] ['b']) = (['a', '\n'], ['b', '\n']) := by
  decide

/-- C2 (amended): under the claim's hypotheses plus the delimiters' own opening
markers not occurring in the texts (neither string contains `"<system>\n"` or
`"<user>\n"`, and neither ends with `"<system>"` or `"<user>"`), decomposition
recovers `(system_text ++ "\n", user_text ++ "\n")`: each original string with
exactly one newline appended, character for character. -/
theorem roundtrip_appends_newline (s u : List Char)
    (hs1 : ¬ sysCloseT <:+: s) (hs2 : ¬ usrCloseT <:+: s)
    (hu1 : ¬ sysCloseT <:+: u) (hu2 : ¬ usrCloseT <:+: u)
    (hs3 : ¬ sysOpenT <:+: s) (hs4 : ¬ usrOpenT <:+: s)
    (hu3 : ¬ sysOpenT <:+: u) (hu4 : ¬ usrOpenT <:+: u)
    (hs5 : ¬ sysOpenBody <:+ s) (hs6 : ¬ usrOpenBody <:+ s)
    (hu5 : ¬ sysOpenBody <:+ u) (hu6 : ¬ usrOpenBody <:+ u) :
    upsert_split_template (composeT s u) = (s ++ ['\n'], u ++ ['\n']) := by
  have hnlu : ('\n' : Char) ∉ usrCloseT := by decide
  have hnls : ('\n' : Char) ∉ sysCloseT := by decide
  -- the piece before the (only) "</user>"
  have hbu : ¬ usrCloseT <:+:
      (sysOpenT ++ s ++ '\n' :: sysCloseT ++ '\n' :: usrOpenT ++ u ++ ['\n']) ++
        usrCloseT.dropLast := by
    have hshape : (sysOpenT ++ s ++ '\n' :: sysCloseT ++ '\n' :: usrOpenT ++ u ++ ['\n']) ++
        usrCloseT.dropLast =
        sysOpenBody ++ '\n' ::
          (s ++ '\n' :: (sysCloseT ++ '\n' ::
            (usrOpenBody ++ '\n' :: (u ++ '\n' :: usrCloseT.dropLast)))) := by
      simp [sysOpenT, usrOpenT, List.append_assoc]
    rw [hshape]
    apply not_infix_append_char hnlu (by decide)
    apply not_infix_append_char hnlu hs2
    apply not_infix_append_char hnlu (by decide)
    apply not_infix_append_char hnlu (by decide)
    exact not_infix_append_char hnlu hu2 (by decide)
  have hzu : composeT s u =
      (sysOpenT ++ s ++ '\n' :: sysCloseT ++ '\n' :: usrOpenT ++ u ++ ['\n']) ++
        (usrCloseT ++ []) := by
    simp [composeT, List.append_assoc]
  have hu_split : pySplit usrCloseT (composeT s u) =
      [sysOpenT ++ s ++ '\n' :: sysCloseT ++ '\n' :: usrOpenT ++ u ++ ['\n'], []] := by
    rw [hzu, pySplit_marker (by decide) hbu]
    rfl
  -- the piece before the (first) "</system>"
  have hbs : ¬ sysCloseT <:+: (sysOpenT ++ (s ++ ['\n'])) ++ sysCloseT.dropLast := by
    have hshape : (sysOpenT ++ (s ++ ['\n'])) ++ sysCloseT.dropLast =
        sysOpenBody ++ '\n' :: (s ++ '\n' :: sysCloseT.dropLast) := by
      simp [sysOpenT, List.append_assoc]
    rw [hshape]
    apply not_infix_append_char hnls (by decide)
    exact not_infix_append_char hnls hs1 (by decide)
  have hzs : composeT s u =
      (sysOpenT ++ (s ++ ['\n'])) ++
        (sysCloseT ++ ('\n' :: usrOpenT ++ u ++ '\n' :: usrCloseT)) := by
    simp [composeT, List.append_assoc]
  have hs_split : (pySplit sysCloseT (composeT s u)).headI = sysOpenT ++ (s ++ ['\n']) := by
    rw [hzs, pySplit_marker (by decide) hbs]
    rfl
  -- recovering the system text
  have hnos : ¬ sysOpenT <:+: s ++ ['\n'] := by
    intro h
    rcases infix_snoc_cases h with h | h
    · exact hs3 h
    · exact hs5 (suffix_snoc_cancel h)
  have hsys : replaceAll sysOpenT [] (pySplit sysCloseT (composeT s u)).headI =
      s ++ ['\n'] := by
    rw [hs_split, replaceAll_marker_head (by decide), List.nil_append]
    exact replaceAll_no_marker (by decide) hnos
  -- recovering the user text
  have hbu2 : ¬ usrOpenT <:+:
      (sysOpenT ++ s ++ '\n' :: sysCloseT ++ ['\n']) ++ usrOpenT.dropLast := by
    have hshape : (sysOpenT ++ s ++ '\n' :: sysCloseT ++ ['\n']) ++ usrOpenT.dropLast =
        sysOpenBody ++ '\n' :: (s ++ '\n' :: (sysCloseT ++ '\n' :: usrOpenBody)) := by
      simp [sysOpenT, usrOpenT, usrOpenBody, List.append_assoc]
    rw [hshape]
    intro h
    rcases infix_end_char (by decide) h with h | h | h
    · exact absurd h (by decide)
    · rcases infix_end_char (by decide) h with h | h | h
      · exact hs4 h
      · rcases infix_end_char (by decide) h with h | h | h
        · exact absurd h (by decide)
        · exact absurd h (by decide)
        · exact absurd h (by decide)
      · exact hs6 h
    · exact absurd h (by decide)
  have ha2 : sysOpenT ++ s ++ '\n' :: sysCloseT ++ '\n' :: usrOpenT ++ u ++ ['\n'] =
      (sysOpenT ++ s ++ '\n' :: sysCloseT ++ ['\n']) ++ (usrOpenT ++ (u ++ ['\n'])) := by
    simp [List.append_assoc]
  have hnou : ¬ usrOpenT <:+: u ++ ['\n'] := by
    intro h
    rcases infix_snoc_cases h with h | h
    · exact hu4 h
    · exact hu6 (suffix_snoc_cancel h)
  have husr : pySplit usrOpenT
      (sysOpenT ++ s ++ '\n' :: sysCloseT ++ '\n' :: usrOpenT ++ u ++ ['\n']) =
      [sysOpenT ++ s ++ '\n' :: sysCloseT ++ ['\n'], u ++ ['\n']] := by
    rw [ha2, pySplit_marker (by decide) hbu2, pySplit_no_marker hnou]
  -- assembling the decomposition
  rw [upsert_split_template]
  rw [hu_split]
  simp only [List.length_cons, List.length_nil]
  rw [if_neg (by omega)]
  rw [hsys]
  simp only [Nat.zero_add, Nat.reduceAdd, Nat.sub_self]
  rw [List.getD_cons_zero]
  rw [husr]
  simp [List.getLastD_cons, List.getLastD_nil]

/-- Witness for `roundtrip_appends_newline` at the scenario texts
`"Be kind."` and `"Hello\nWorld"`. -/
theorem roundtrip_appends_newline_witness :
    ((¬ sysCloseT <:+: "Be kind.".data) ∧ (¬ usrCloseT <:+: "Be kind.".data) ∧
     (¬ sysCloseT <:+: "Hello\nWorld".data) ∧ (¬ usrCloseT <:+: "Hello\nWorld".data) ∧
     (¬ sysOpenT <:+: "Be kind.".data) ∧ (¬ usrOpenT <:+: "Be kind.".data) ∧
     (¬ sysOpenT <:+: "Hello\nWorld".data) ∧ (¬ usrOpenT <:+: "Hello\nWorld".data) ∧
     (¬ sysOpenBody <:+ "Be kind.".data) ∧ (¬ usrOpenBody <:+ "Be kind.".data) ∧
     (¬ sysOpenBody <:+ "Hello\nWorld".data) ∧ (¬ usrOpenBody <:+ "Hello\nWorld".data)) ∧
    upsert_split_template (composeT "Be kind.".data "Hello\nWorld".data) =
      ("Be kind.".data ++ ['\n'], "Hello\nWorld".data ++ ['\n']) :=
  ⟨⟨by decide, by decide, by decide, by decide, by decide, by decide, by decide,
    by decide, by decide, by decide, by decide, by decide⟩,
   roundtrip_appends_newline "Be kind.".data "Hello\nWorld".data (by decide) (by decide)
     (by decide) (by decide) (by decide) (by decide) (by decide) (by decide)
     (by decide) (by decide) (by decide) (by decide)⟩

/-- `'-'` is not in the kept character class. -/
theorem isLowerAlnum_ne_dash {c : Char} (h : isLowerAlnum c = true) : c ≠ '-' := by
  intro hc
  rw [hc] at h
  exact absurd h (by decide)

/-- Lowercasing fixes the characters the regex keeps. -/
theorem lowerChar_eq_self {c : Char} (h : isLowerAlnum c = true) : lowerChar c = c := by
  rw [lowerChar, if_neg]
  intro hAZ
  simp only [Bool.and_eq_true, decide_eq_true_eq] at hAZ
  simp only [isLowerAlnum, Bool.or_eq_true, Bool.and_eq_true, decide_eq_true_eq] at h
  rcases h with ⟨h1, _⟩ | ⟨_, h2⟩
  · exact absurd (le_trans h1 hAZ.2) (by decide)
  · exact absurd (le_trans hAZ.1 h2) (by decide)

/-- Every character emitted by `collapseGo` is a dash or alphanumeric. -/
theorem mem_collapseGo {c : Char} : ∀ (b : Bool) (l : List Char),
    c ∈ collapseGo b l → c = '-' ∨ isLowerAlnum c = true := by
  intro b l
  induction l generalizing b with
  | nil =>
    intro h
    rw [collapseGo] at h
    exact absurd h (List.not_mem_nil c)
  | cons x xs ih =>
    intro h
    by_cases hx : isLowerAlnum x
    · cases b with
      | false =>
        rw [collapseGo, if_pos hx] at h
        rcases List.mem_cons.mp h with rfl | h
        · exact Or.inr hx
        · exact ih false h
      | true =>
        rw [collapseGo, if_pos hx] at h
        rcases List.mem_cons.mp h with rfl | h
        · exact Or.inr hx
        · exact ih false h
    · cases b with
      | false =>
        rw [collapseGo, if_neg hx] at h
        rcases List.mem_cons.mp h with rfl | h
        · exact Or.inl rfl
        · exact ih true h
      | true =>
        rw [collapseGo, if_neg hx] at h
        exact ih true h

/-- After a dash has been emitted, the next emitted character is alphanumeric. -/
theorem head_collapseGo_true : ∀ (l : List Char) (d : Char),
    (collapseGo true l).head? = some d → isLowerAlnum d = true := by
  intro l
  induction l with
  | nil =>
    intro d h
    rw [collapseGo] at h
    exact absurd h (by simp)
  | cons x xs ih =>
    intro d h
    by_cases hx : isLowerAlnum x
    · rw [collapseGo, if_pos hx, List.head?_cons, Option.some.injEq] at h
      exact h ▸ hx
    · rw [collapseGo, if_neg hx] at h
      exact ih d h

/-- `collapseGo` never emits two adjacent dashes. -/
theorem chain_collapseGo : ∀ (b : Bool) (l : List Char),
    List.Chain' DashSep (collapseGo b l) := by
  intro b l
  induction l generalizing b with
  | nil =>
    rw [collapseGo]
    exact List.chain'_nil
  | cons x xs ih =>
    by_cases hx : isLowerAlnum x
    · have hstep : collapseGo b (x :: xs) = x :: collapseGo false xs := by
        cases b
        · rw [collapseGo, if_pos hx]
        · rw [collapseGo, if_pos hx]
      rw [hstep, List.chain'_cons']
      refine ⟨?_, ih false⟩
      intro y _ hcon
      exact absurd hcon.1 (isLowerAlnum_ne_dash hx)
    · cases b with
      | false =>
        rw [collapseGo, if_neg hx, List.chain'_cons']
        refine ⟨?_, ih true⟩
        intro y hy hcon
        exact absurd hcon.2
          (isLowerAlnum_ne_dash (head_collapseGo_true xs y (Option.mem_def.mp hy)))
      | true =>
        rw [collapseGo, if_neg hx]
        exact ih true

/-- `lstrip` is the identity when the head is not a dash. -/
theorem lstrip_eq_self {l : List Char} (h : ∀ d, l.head? = some d → d ≠ '-') :
    lstripDash l = l := by
  cases l with
  | nil => rfl
  | cons x xs =>
    have hx : x ≠ '-' := h x rfl
    simp [lstripDash, List.dropWhile_cons, hx]

/-- The head surviving `lstrip` is not a dash. -/
theorem head_lstrip {l : List Char} {d : Char} (h : (lstripDash l).head? = some d) :
    d ≠ '-' := by
  have h2 := List.head?_dropWhile_not (· == '-') l
  rw [lstripDash] at h
  rw [h] at h2
  simpa using h2

/-- `rstrip` only trims from the right, so its result is a prefix. -/
theorem rstrip_prefix_self (l : List Char) : rstripDash l <+: l := by
  have h : List.dropWhile (· == '-') l.reverse <:+ l.reverse :=
    List.dropWhile_suffix _
  have h2 := List.reverse_prefix.mpr h
  rw [List.reverse_reverse] at h2
  exact h2

/-- The last character surviving `rstrip` is not a dash. -/
theorem getLast_rstrip {l : List Char} {d : Char}
    (h : (rstripDash l).getLast? = some d) : d ≠ '-' := by
  rw [List.getLast?_eq_head?_reverse, rstripDash, List.reverse_reverse] at h
  exact head_lstrip h

/-- `rstrip` is the identity when the last character is not a dash. -/
theorem rstrip_eq_self {l : List Char} (h : ∀ d, l.getLast? = some d → d ≠ '-') :
    rstripDash l = l := by
  rw [rstripDash]
  have h2 : lstripDash l.reverse = l.reverse := by
    apply lstrip_eq_self
    intro d hd
    exact h d (by rw [List.getLast?_eq_head?_reverse]; exact hd)
  rw [lstripDash] at h2
  rw [h2, List.reverse_reverse]

/-- Membership is preserved downwards through `lstrip`. -/
theorem mem_of_mem_lstrip {l : List Char} {c : Char} (h : c ∈ lstripDash l) :
    c ∈ l :=
  (List.dropWhile_sublist _).mem h

/-- Membership is preserved downwards through `rstrip`. -/
theorem mem_of_mem_rstrip {l : List Char} {c : Char} (h : c ∈ rstripDash l) :
    c ∈ l := by
  rw [rstripDash, List.mem_reverse] at h
  exact List.mem_reverse.mp ((List.dropWhile_sublist _).mem h)

/-- Every character of a slug is a dash or alphanumeric. -/
theorem mem_slugify {l : List Char} {c : Char} (h : c ∈ slugify l) :
    c = '-' ∨ isLowerAlnum c = true := by
  rw [slugify] at h
  exact mem_collapseGo false (l.map lowerChar) (mem_of_mem_lstrip (mem_of_mem_rstrip h))

/-- A slug never starts with the separator. -/
theorem head_slugify {l : List Char} {d : Char} (h : (slugify l).head? = some d) :
    d ≠ '-' := by
  rw [slugify] at h
  rcases rstrip_prefix_self (lstripDash (collapseGo false (l.map lowerChar))) with ⟨t, ht⟩
  cases hr : rstripDash (lstripDash (collapseGo false (l.map lowerChar))) with
  | nil => rw [hr] at h; exact absurd h (by simp)
  | cons y ys =>
    rw [hr] at h ht
    rw [List.head?_cons, Option.some.injEq] at h
    subst h
    apply head_lstrip
    rw [← ht, List.cons_append, List.head?_cons]

/-- A slug never ends with the separator. -/
theorem getLast_slugify {l : List Char} {d : Char}
    (h : (slugify l).getLast? = some d) : d ≠ '-' := by
  rw [slugify] at h
  exact getLast_rstrip h

/-- A slug never has two adjacent dashes. -/
theorem chain_slugify (l : List Char) : List.Chain' DashSep (slugify l) := by
  rw [slugify]
  have h1 := chain_collapseGo false (l.map lowerChar)
  have h2 : List.Chain' DashSep (lstripDash (collapseGo false (l.map lowerChar))) :=
    h1.suffix (List.dropWhile_suffix _)
  exact h2.prefix (rstrip_prefix_self _)

/-- `collapseGo` is the identity on dash-separated slug material; starting in
the in-run state additionally needs a non-dash head. -/
theorem collapseGo_eq_self : ∀ (m : List Char),
    (∀ c ∈ m, c = '-' ∨ isLowerAlnum c = true) → List.Chain' DashSep m →
    collapseGo false m = m ∧ (m.head? ≠ some '-' → collapseGo true m = m) := by
  intro m
  induction m with
  | nil => exact fun _ _ => ⟨rfl, fun _ => rfl⟩
  | cons x xs ih =>
    intro h1 h2
    rcases List.chain'_cons'.mp h2 with ⟨hrel, hchain⟩
    have hxs := ih (fun c hc => h1 c (List.mem_cons_of_mem _ hc)) hchain
    rcases h1 x (List.mem_cons_self _ _) with hx | hx
    · subst hx
      have hnx : ¬ isLowerAlnum '-' = true := by decide
      have hhead : xs.head? ≠ some '-' := by
        intro hh
        exact hrel '-' (by rw [hh]; rfl) ⟨rfl, rfl⟩
      constructor
      · rw [collapseGo, if_neg hnx, hxs.2 hhead]
      · intro hcon
        exact absurd rfl hcon
    · constructor
      · rw [collapseGo, if_pos hx, hxs.1]
      · intro _
        rw [collapseGo, if_pos hx, hxs.1]

/-- Mapping a function that fixes every member is the identity. -/
theorem map_id_of_mem {f : Char → Char} : ∀ (m : List Char),
    (∀ c ∈ m, f c = c) → m.map f = m := by
  intro m
  induction m with
  | nil => exact fun _ => rfl
  | cons x xs ih =>
    intro h
    rw [List.map_cons, h x (List.mem_cons_self _ _),
      ih (fun c hc => h c (List.mem_cons_of_mem _ hc))]

/-- C6: `slugify` is idempotent — applying it to its own output changes
nothing. -/
theorem slugify_idempotent (l : List Char) : slugify (slugify l) = slugify l := by
  have hmem : ∀ c ∈ slugify l, c = '-' ∨ isLowerAlnum c = true :=
    fun c hc => mem_slugify hc
  have hmap : (slugify l).map lowerChar = slugify l := by
    apply map_id_of_mem
    intro c hc
    rcases hmem c hc with rfl | hc2
    · rfl
    · exact lowerChar_eq_self hc2
  have hchain : List.Chain' DashSep (slugify l) := chain_slugify l
  have hcollapse : collapseGo false (slugify l) = slugify l :=
    (collapseGo_eq_self (slugify l) hmem hchain).1
  have hlstrip : lstripDash (slugify l) = slugify l := by
    apply lstrip_eq_self
    intro d hd
    exact head_slugify hd
  have hrstrip : rstripDash (slugify l) = slugify l := by
    apply rstrip_eq_self
    intro d hd
    exact getLast_slugify hd
  calc slugify (slugify l)
      = rstripDash (lstripDash (collapseGo false ((slugify l).map lowerChar))) := rfl
    _ = rstripDash (lstripDash (collapseGo false (slugify l))) := by rw [hmap]
    _ = rstripDash (lstripDash (slugify l)) := by rw [hcollapse]
    _ = rstripDash (slugify l) := by rw [hlstrip]
    _ = slugify l := hrstrip

/-- Starting inside a run is the same as skipping the rest of the run. -/
theorem collapseGo_true_eq : ∀ (m : List Char),
    collapseGo true m = collapseGo false (m.dropWhile (fun c => !isLowerAlnum c)) := by
  intro m
  induction m with
  | nil => rfl
  | cons x xs ih =>
    by_cases hx : isLowerAlnum x
    · have h1 : collapseGo true (x :: xs) = x :: collapseGo false xs := by
        rw [collapseGo, if_pos hx]
      have h2 : (x :: xs).dropWhile (fun c => !isLowerAlnum c) = x :: xs := by
        rw [List.dropWhile_cons, if_neg (by simp [hx])]
      rw [h1, h2, collapseGo, if_pos hx]
    · have h1 : collapseGo true (x :: xs) = collapseGo true xs := by
        rw [collapseGo, if_neg hx]
      have h2 : (x :: xs).dropWhile (fun c => !isLowerAlnum c) =
          xs.dropWhile (fun c => !isLowerAlnum c) := by
        rw [List.dropWhile_cons, if_pos (by simp [hx])]
      rw [h1, h2, ih]

/-- A leading non-alphanumeric run contributes no chunk. -/
theorem chunksGo_nil_skip : ∀ (m : List Char),
    chunksGo [] m = chunksGo [] (m.dropWhile (fun c => !isLowerAlnum c)) := by
  intro m
  induction m with
  | nil => rfl
  | cons x xs ih =>
    by_cases hx : isLowerAlnum x
    · rw [List.dropWhile_cons, if_neg (by simp [hx])]
    · rw [List.dropWhile_cons, if_pos (by simp [hx]), chunksGo, if_neg hx,
        if_pos (show ([] : List Char).isEmpty = true from rfl), ih]

/-- Stripping leading dashes from the collapse of `m` collapses `m` with its
leading non-alphanumeric run removed. -/
theorem lstrip_collapseGo : ∀ (m : List Char),
    lstripDash (collapseGo false m) =
      collapseGo false (m.dropWhile (fun c => !isLowerAlnum c)) := by
  intro m
  cases m with
  | nil => rfl
  | cons x xs =>
    by_cases hx : isLowerAlnum x
    · rw [collapseGo, if_pos hx]
      have hself : lstripDash (x :: collapseGo false xs) = x :: collapseGo false xs := by
        apply lstrip_eq_self
        intro d hd
        rw [List.head?_cons, Option.some.injEq] at hd
        exact hd ▸ isLowerAlnum_ne_dash hx
      rw [hself, List.dropWhile_cons, if_neg (by simp [hx]), collapseGo, if_pos hx]
    · rw [collapseGo, if_neg hx]
      rw [lstripDash, List.dropWhile_cons,
        if_pos (show ('-' == '-') = true from rfl)]
      have hid : lstripDash (collapseGo true xs) = collapseGo true xs := by
        apply lstrip_eq_self
        intro d hd
        exact isLowerAlnum_ne_dash (head_collapseGo_true xs d hd)
      rw [lstripDash] at hid
      rw [hid, collapseGo_true_eq, List.dropWhile_cons, if_pos (by simp [hx])]

/-- `collapseGo` copies a leading alphanumeric run verbatim. -/
theorem collapseGo_alnum_run : ∀ (t r : List Char),
    (∀ c ∈ t, isLowerAlnum c = true) →
    collapseGo false (t ++ r) = t ++ collapseGo false r := by
  intro t
  induction t with
  | nil => exact fun r _ => rfl
  | cons c t' ih =>
    intro r h
    rw [List.cons_append, collapseGo, if_pos (h c (List.mem_cons_self _ _)),
      ih r (fun d hd => h d (List.mem_cons_of_mem _ hd)), List.cons_append]

/-- `chunksGo` accumulates a leading alphanumeric run into the current chunk. -/
theorem chunksGo_alnum_run : ∀ (t cur r : List Char),
    (∀ c ∈ t, isLowerAlnum c = true) →
    chunksGo cur (t ++ r) = chunksGo (t.reverse ++ cur) r := by
  intro t
  induction t with
  | nil => exact fun cur r _ => by rw [List.nil_append, List.reverse_nil, List.nil_append]
  | cons c t' ih =>
    intro cur r h
    rw [List.cons_append, chunksGo, if_pos (h c (List.mem_cons_self _ _)),
      ih (c :: cur) r (fun d hd => h d (List.mem_cons_of_mem _ hd))]
    congr 1
    rw [List.reverse_cons, List.append_assoc, List.singleton_append]

/-- `rstrip` distributes over an append whose right part survives. -/
theorem rstrip_append_of_ne_nil {X Y : List Char} (h : rstripDash Y ≠ []) :
    rstripDash (X ++ Y) = X ++ rstripDash Y := by
  have h2 : ¬ (List.dropWhile (· == '-') Y.reverse).isEmpty = true := by
    intro h3
    apply h
    rw [rstripDash, List.isEmpty_iff.mp h3]
    rfl
  rw [rstripDash, List.reverse_append, List.dropWhile_append, if_neg h2,
    List.reverse_append, List.reverse_reverse, rstripDash]

/-- A trailing dash is removed by `rstrip`. -/
theorem rstrip_snoc_dash (X : List Char) : rstripDash (X ++ ['-']) = rstripDash X := by
  rw [rstripDash, List.reverse_append]
  simp only [List.reverse_cons, List.reverse_nil, List.nil_append, List.singleton_append]
  rw [List.dropWhile_cons, if_pos (show ('-' == '-') = true from rfl)]
  rfl

/-- `rstrip` fixes all-alphanumeric strings. -/
theorem rstrip_all_alnum {m : List Char} (h : ∀ c ∈ m, isLowerAlnum c = true) :
    rstripDash m = m := by
  apply rstrip_eq_self
  intro d hd
  have hdm : d ∈ m := by
    cases m with
    | nil => exact absurd hd (by simp)
    | cons y ys =>
      rw [List.getLast?_eq_getLast _ (List.cons_ne_nil y ys), Option.some.injEq] at hd
      exact hd ▸ List.getLast_mem _
  exact isLowerAlnum_ne_dash (h d hdm)

/-- A run with a pending chunk always produces a first chunk, and it is
nonempty. -/
theorem chunksGo_ne_nil_of_cur : ∀ (m cur : List Char), cur ≠ [] →
    ∃ x xs, chunksGo cur m = x :: xs ∧ x ≠ [] := by
  intro m
  induction m with
  | nil =>
    intro cur h
    refine ⟨cur.reverse, [], ?_, by simpa [List.reverse_eq_nil_iff] using h⟩
    rw [chunksGo, if_neg (by simpa [List.isEmpty_iff] using h)]
  | cons c cs ih =>
    intro cur h
    by_cases hc : isLowerAlnum c
    · rw [chunksGo, if_pos hc]
      exact ih (c :: cur) (List.cons_ne_nil _ _)
    · rw [chunksGo, if_neg hc, if_neg (by simpa [List.isEmpty_iff] using h)]
      exact ⟨cur.reverse, chunksGo [] cs, rfl,
        by simpa [List.reverse_eq_nil_iff] using h⟩

/-- Unfolding `joinDash` at a cons with a nonempty tail. -/
theorem joinDash_cons_of_ne {x : List Char} {xs : List (List Char)} (h : xs ≠ []) :
    joinDash (x :: xs) = x ++ '-' :: joinDash xs := by
  cases xs with
  | nil => exact absurd rfl h
  | cons y ys => rfl

/-- The chunks of an alphanumeric-headed string join to a nonempty slug. -/
theorem joinDash_chunks_ne_nil {c : Char} {cs : List Char}
    (hc : isLowerAlnum c = true) : joinDash (chunksGo [] (c :: cs)) ≠ [] := by
  rw [chunksGo, if_pos hc]
  rcases chunksGo_ne_nil_of_cur cs [c] (List.cons_ne_nil _ _) with ⟨x, xs, hx, hxne⟩
  rw [hx]
  cases xs with
  | nil => simpa [joinDash] using hxne
  | cons y ys =>
    rw [joinDash_cons_of_ne (List.cons_ne_nil _ _)]
    exact List.append_ne_nil_of_right_ne_nil x (List.cons_ne_nil _ _)

/-- Core of the slugify/spec agreement: on an alphanumeric-headed (or empty)
string, collapsing then right-stripping equals joining the chunks with single
dashes. -/
theorem rstrip_collapse_eq_join : ∀ (n : Nat) (m : List Char), m.length ≤ n →
    (∀ d, m.head? = some d → isLowerAlnum d = true) →
    rstripDash (collapseGo false m) = joinDash (chunksGo [] m) := by
  intro n
  induction n with
  | zero =>
    intro m hm _
    obtain rfl : m = [] := List.length_eq_zero.mp (Nat.le_zero.mp hm)
    rfl
  | succ n ihn =>
    intro m hm hhead
    cases m with
    | nil => rfl
    | cons c cs =>
      have hc : isLowerAlnum c = true := hhead c rfl
      have hsplit : cs.takeWhile isLowerAlnum ++ cs.dropWhile isLowerAlnum = cs :=
        List.takeWhile_append_dropWhile _ _
      have htal : ∀ x ∈ cs.takeWhile isLowerAlnum, isLowerAlnum x = true :=
        fun x hx => List.mem_takeWhile_imp hx
      have htal' : ∀ x ∈ c :: cs.takeWhile isLowerAlnum, isLowerAlnum x = true := by
        intro x hx
        rcases List.mem_cons.mp hx with rfl | hx
        · exact hc
        · exact htal x hx
      have hCG : collapseGo false (c :: cs) =
          c :: (cs.takeWhile isLowerAlnum ++
            collapseGo false (cs.dropWhile isLowerAlnum)) := by
        rw [collapseGo, if_pos hc]
        conv_lhs => rw [← hsplit]
        rw [collapseGo_alnum_run (cs.takeWhile isLowerAlnum)
          (cs.dropWhile isLowerAlnum) htal]
      have hCH : chunksGo [] (c :: cs) =
          chunksGo ((cs.takeWhile isLowerAlnum).reverse ++ [c])
            (cs.dropWhile isLowerAlnum) := by
        rw [chunksGo, if_pos hc]
        conv_lhs => rw [← hsplit]
        rw [chunksGo_alnum_run (cs.takeWhile isLowerAlnum) [c]
          (cs.dropWhile isLowerAlnum) htal]
      rw [hCG, hCH]
      cases hd : cs.dropWhile isLowerAlnum with
      | nil =>
        rw [show collapseGo false ([] : List Char) = [] from rfl, List.append_nil]
        rw [chunksGo, if_neg (by simp)]
        rw [show joinDash [((cs.takeWhile isLowerAlnum).reverse ++ [c]).reverse] =
            ((cs.takeWhile isLowerAlnum).reverse ++ [c]).reverse from rfl]
        rw [List.reverse_append, List.reverse_reverse]
        simp only [List.reverse_cons, List.reverse_nil, List.nil_append,
          List.singleton_append]
        exact rstrip_all_alnum htal'
      | cons e ds =>
        have he : isLowerAlnum e = false := by
          have h2 := List.head?_dropWhile_not isLowerAlnum cs
          rw [hd, List.head?_cons] at h2
          simpa using h2
        have hCGd : collapseGo false (e :: ds) =
            '-' :: collapseGo false (ds.dropWhile (fun x => !isLowerAlnum x)) := by
          rw [collapseGo, if_neg (by simp [he]), collapseGo_true_eq]
        have hCHd : chunksGo ((cs.takeWhile isLowerAlnum).reverse ++ [c]) (e :: ds) =
            (c :: cs.takeWhile isLowerAlnum) :: chunksGo [] ds := by
          rw [chunksGo, if_neg (by simp [he]), if_neg (by simp)]
          congr 1
          rw [List.reverse_append, List.reverse_reverse]
          simp
        rw [hCGd, hCHd, chunksGo_nil_skip ds]
        cases hd2 : ds.dropWhile (fun x => !isLowerAlnum x) with
        | nil =>
          rw [show collapseGo false ([] : List Char) = [] from rfl]
          rw [show chunksGo ([] : List Char) ([] : List Char) = [] from rfl]
          rw [show joinDash [c :: cs.takeWhile isLowerAlnum] =
              c :: cs.takeWhile isLowerAlnum from rfl]
          rw [show c :: (cs.takeWhile isLowerAlnum ++ ['-']) =
              (c :: cs.takeWhile isLowerAlnum) ++ ['-'] from rfl]
          rw [rstrip_snoc_dash]
          exact rstrip_all_alnum htal'
        | cons f fs =>
          have hf : isLowerAlnum f = true := by
            have h2 := List.head?_dropWhile_not (fun x => !isLowerAlnum x) ds
            rw [hd2, List.head?_cons] at h2
            simpa using h2
          have hlen : (f :: fs).length ≤ n := by
            have h3 : (ds.dropWhile (fun x => !isLowerAlnum x)).length ≤ ds.length :=
              (List.dropWhile_sublist _).length_le
            rw [hd2] at h3
            have h4 : (cs.dropWhile isLowerAlnum).length ≤ cs.length :=
              (List.dropWhile_sublist _).length_le
            rw [hd] at h4
            simp only [List.length_cons] at h3 h4 hm ⊢
            omega
          have hIH := ihn (f :: fs) hlen (fun d hd3 => by
            rw [List.head?_cons, Option.some.injEq] at hd3
            exact hd3 ▸ hf)
          have hJne : joinDash (chunksGo [] (f :: fs)) ≠ [] := joinDash_chunks_ne_nil hf
          have hRne : rstripDash (collapseGo false (f :: fs)) ≠ [] := by
            rw [hIH]
            exact hJne
          rw [show c :: (cs.takeWhile isLowerAlnum ++
              '-' :: collapseGo false (f :: fs)) =
              ((c :: cs.takeWhile isLowerAlnum) ++ ['-']) ++
                collapseGo false (f :: fs) by simp [List.append_assoc]]
          rw [rstrip_append_of_ne_nil hRne, hIH]
          have hch_ne : chunksGo ([] : List Char) (f :: fs) ≠ [] := by
            rw [chunksGo, if_pos hf]
            rcases chunksGo_ne_nil_of_cur fs [f] (List.cons_ne_nil _ _) with
              ⟨x, xs, hx, _⟩
            rw [hx]
            exact List.cons_ne_nil _ _
          rw [joinDash_cons_of_ne hch_ne]
          simp [List.append_assoc]

/-- C7: `slugify` realises the spec's formula — lowercase, each maximal
non-alphanumeric run replaced by one separator, separators trimmed at both ends
(stated via `spec_slugify`, the chunks-joined rendering of those words) — and
consequently its output never contains `'/'`, `'@'` or an uppercase letter,
never starts or ends with `'-'`, and is empty for empty input or input with no
alphanumeric characters (after lowering). -/
theorem slugify_contract (l : List Char) :
    slugify l = spec_slugify l ∧
    (∀ c ∈ slugify l, c ≠ '/' ∧ c ≠ '@' ∧ ¬('A' ≤ c ∧ c ≤ 'Z')) ∧
    (slugify l).head? ≠ some '-' ∧
    (slugify l).getLast? ≠ some '-' ∧
    slugify ([] : List Char) = [] ∧
    ((∀ c ∈ l, isLowerAlnum (lowerChar c) = false) → slugify l = []) := by
  refine ⟨?_, ?_, ?_, ?_, rfl, ?_⟩
  · rw [slugify, spec_slugify, alnumChunks, lstrip_collapseGo, chunksGo_nil_skip]
    refine rstrip_collapse_eq_join _ _ le_rfl ?_
    intro d hd
    have h2 := List.head?_dropWhile_not (fun c => !isLowerAlnum c) (l.map lowerChar)
    rw [hd] at h2
    simpa using h2
  · intro c hc
    rcases mem_slugify hc with rfl | hc2
    · exact ⟨by decide, by decide, by decide⟩
    · simp only [isLowerAlnum, Bool.or_eq_true, Bool.and_eq_true,
        decide_eq_true_eq] at hc2
      rcases hc2 with ⟨h1, h2⟩ | ⟨h1, h2⟩
      · refine ⟨fun hch => ?_, fun hch => ?_, fun hch => ?_⟩
        · rw [hch] at h1
          exact absurd h1 (by decide)
        · rw [hch] at h1
          exact absurd h1 (by decide)
        · exact absurd (le_trans h1 hch.2) (by decide)
      · refine ⟨fun hch => ?_, fun hch => ?_, fun hch => ?_⟩
        · rw [hch] at h1
          exact absurd h1 (by decide)
        · rw [hch] at h2
          exact absurd h2 (by decide)
        · exact absurd (le_trans hch.1 h2) (by decide)
  · intro hh
    exact head_slugify hh rfl
  · intro hh
    exact getLast_slugify hh rfl
  · intro hall
    have hmap : ∀ x ∈ l.map lowerChar, (fun c => !isLowerAlnum c) x = true := by
      intro x hx
      rcases List.mem_map.mp hx with ⟨y, hy, rfl⟩
      simp [hall y hy]
    have hdrop : (l.map lowerChar).dropWhile (fun c => !isLowerAlnum c) = [] :=
      List.dropWhile_eq_nil_iff.mpr hmap
    rw [slugify, lstrip_collapseGo, hdrop]
    rfl

/-- Witness for `slugify_contract`: the formula agreement at a concrete messy
input, and the empty-result clause at an all-symbol input. -/
theorem slugify_contract_witness :
    slugify " Support  Bot! ".data = spec_slugify " Support  Bot! ".data ∧
    (∀ c ∈ " !?-".data, isLowerAlnum (lowerChar c) = false) ∧
    slugify " !?-".data = [] :=
  ⟨(slugify_contract " Support  Bot! ".data).1, by decide,
   (slugify_contract " !?-".data).2.2.2.2.2 (by decide)⟩

end PromptLib
